import Mathlib

/-!
Shallow embedding of the Bw-tree core in src/src/backend/index/bwtree.h
(template class BWTree).  Keys and values are modelled as naturals: the
comparator callbacks m_key_less / m_key_equal / m_value_equal are
instantiated with the usual order and equality on Nat, which is a faithful
instance of the required total order.  PIDs are modelled as Int, with
NULL_PID = -1 as in the source.

Fatal assertions (assert(0) / LOG_ERROR+assert paths) are modelled by
Option results: none means the C++ code aborts (or commits undefined
behaviour).  The slotuse field is an unsigned short in the source; it is
modelled as Nat because no claim under proof exercises 16-bit wraparound.

The merge path (apend_merge) is a stub returning false in the source, so
remove-deltas, merge-deltas and delete-index-term-deltas are never
installed on any chain; chains built by the operations consist of record
deltas, split deltas, index-entry deltas and a base node, and the chain
types below reflect exactly that.
-/

namespace BwTree

/-- NULL_PID sentinel (#define NULL_PID -1). -/
def NULL_PID : Int := -1

/-- MAX_DELTA_CHAIN_LEN (#define MAX_DELTA_CHAIN_LEN 8). -/
def MAX_DELTA_CHAIN_LEN : Nat := 8

/-- leafslotmax = BWTREE_MAX(8, BWTREE_NODE_SIZE / (sizeof(KeyType)+sizeof(ValueType))).
With BWTREE_NODE_SIZE = 256 this evaluates to 8 for any instantiation with
sizeof(KeyType)+sizeof(ValueType) ≥ 32; the claims under proof do not
depend on the particular value. -/
def leafslotmax : Nat := 8

/-- innerslotmax, analogous to leafslotmax for inner nodes. -/
def innerslotmax : Nat := 8

/-- key_less(a, b, b_max_inf): true if b is the +inf sentinel, else m_key_less(a,b). -/
def key_lessB (a b : Nat) (bMaxInf : Bool) : Bool :=
  bMaxInf || decide (a < b)

/-- key_greaterequal(a, b, b_min_inf): true if b is the -inf sentinel, else !(a < b). -/
def key_greaterequalB (a b : Nat) (bMinInf : Bool) : Bool :=
  bMinInf || decide (b ≤ a)

/--
A leaf-page delta chain.  The tail is the LeafNode base; the head is the
node currently installed in the mapping slot.  A LeafNode keeps the
parallel arrays slotkey[] / slotdata[] with slotuse valid entries; they are
modelled as one list of (key, value-vector) pairs, which every code path
keeps in lockstep (consolidate asserts keys.size() == vals.size()).
`ins` / `del` are RecordDelta nodes with op_type INSERT / DELETE; `su` is
the slotuse field stored in the delta (set by the RecordDelta constructor
and then adjusted by insert_entry / append_delete).  `splitD` is a
SplitDelta with separator Kp and new-sibling PID pQ; its su is the slotuse
field (set to next->slotuse / 2 by the SplitDelta constructor).
-/
inductive LeafChain where
  | base (slots : List (Nat × List Nat))
  | ins (k v : Nat) (su : Nat) (rest : LeafChain)
  | del (k v : Nat) (su : Nat) (rest : LeafChain)
  | splitD (kp : Nat) (pq : Int) (su : Nat) (rest : LeafChain)
deriving DecidableEq

/-- slotuse of the head node of a chain (for a base node the number of
valid slots, for a delta its stored slotuse field). -/
def headSlotuse : LeafChain → Nat
  | .base slots => slots.length
  | .ins _ _ su _ => su
  | .del _ _ su _ => su
  | .splitD _ _ su _ => su

/-- Structural delta-chain length: number of delta nodes in front of the
base.  By the prepend discipline (see DNode below) this is exactly the
delta_list_len field stored in the head node. -/
def chainLen : LeafChain → Nat
  | .base _ => 0
  | .ins _ _ _ r => chainLen r + 1
  | .del _ _ _ r => chainLen r + 1
  | .splitD _ _ _ r => chainLen r + 1

/-- Decidable guard: every split delta in the chain has separator Kp
strictly greater than the probe key, i.e. the chain-walking readers never
take the key >= Kp branch of a SPLIT_DELTA (that branch is an assert(0) in
key_is_in / count_pair and a redirection out of the chain in get_value).
This is exactly the situation after the key_in_node(key, head) check that
insert_entry / delete_entry perform, since a split delta truncates the
page's key range to [low_key, Kp). -/
def splitOKb (key : Nat) : LeafChain → Bool
  | .base _ => true
  | .ins _ _ _ r => splitOKb key r
  | .del _ _ _ r => splitOKb key r
  | .splitD kp _ _ r => decide (key < kp) && splitOKb key r

/--
key_is_in(key, listhead, deleted): forward scan of the delta chain.
RECORD_DELTA INSERT with equal key whose value is not in the deleted set
returns true; DELETE with equal key extends the deleted set; the LEAF base
is consulted last: the first slot with an equal key decides (true iff some
of its values escapes the deleted set).  On a SPLIT_DELTA whose branch
key >= Kp is taken the source hits assert(0): modelled as none.
-/
def key_is_in_go (key : Nat) (deleted : List Nat) : LeafChain → Option Bool
  | .ins k v _ r =>
      if k = key ∧ v ∉ deleted then some true
      else key_is_in_go key deleted r
  | .del k v _ r =>
      key_is_in_go key (if k = key then v :: deleted else deleted) r
  | .splitD kp _ _ r =>
      if key_greaterequalB key kp false then none
      else key_is_in_go key deleted r
  | .base slots =>
      match slots.find? (fun s => decide (s.1 = key)) with
      | some s => some (s.2.any (fun v => decide (v ∉ deleted)))
      | none => some false

/-- key_is_in(key, listhead): wrapper starting from the empty DelSet. -/
def key_is_in (key : Nat) (c : LeafChain) : Option Bool :=
  key_is_in_go key [] c

/--
count_pair(key, value, listhead): walks the chain with accumulators
(total_count, pair_count) and the deleted set.  An INSERT with equal key
and un-deleted value bumps total_count, and pair_count as well when the
value matches; a DELETE with equal key extends the deleted set; at the
LEAF base the first slot with an equal key contributes its un-deleted
values.  The key >= Kp branch of a SPLIT_DELTA is assert(0): none.
-/
def count_pair_go (key value : Nat) (deleted : List Nat) (tc pc : Nat) :
    LeafChain → Option (Nat × Nat)
  | .ins k v _ r =>
      if k = key ∧ v ∉ deleted then
        count_pair_go key value deleted (tc + 1) (if v = value then pc + 1 else pc) r
      else count_pair_go key value deleted tc pc r
  | .del k v _ r =>
      count_pair_go key value (if k = key then v :: deleted else deleted) tc pc r
  | .splitD kp _ _ r =>
      if key_greaterequalB key kp false then none
      else count_pair_go key value deleted tc pc r
  | .base slots =>
      match slots.find? (fun s => decide (s.1 = key)) with
      | none => some (tc, pc)
      | some s =>
          let vs := s.2.filter (fun v => decide (v ∉ deleted))
          some (tc + vs.length, pc + (vs.filter (fun v => decide (v = value))).length)

/-- count_pair with empty initial DelSet and zero counters, as called by
delete_entry. -/
def count_pair (key value : Nat) (c : LeafChain) : Option (Nat × Nat) :=
  count_pair_go key value [] 0 0 c

/--
get_value's chain interpretation loop: the by-reference result vector is
returned; push_back order is preserved.  RECORD_DELTA with equal key:
INSERT emits the value unless it is in delset, DELETE inserts the value
into delset.  The LEAF base appends, for every slot with an equal key (the
loop does not break), each stored value not in delset.  A SPLIT_DELTA with
key >= Kp redirects to the new sibling through the mapping table, leaving
this chain: modelled as none (and guarded by splitOKb in the theorems).
-/
def get_value_go (key : Nat) (delset : List Nat) : LeafChain → Option (List Nat)
  | .ins k v _ r =>
      if k = key then
        if v ∈ delset then get_value_go key delset r
        else (get_value_go key delset r).map (fun res => v :: res)
      else get_value_go key delset r
  | .del k v _ r =>
      if k = key then get_value_go key (v :: delset) r
      else get_value_go key delset r
  | .splitD kp _ _ r =>
      if key_greaterequalB key kp false then none
      else get_value_go key delset r
  | .base slots =>
      some (slots.flatMap (fun s =>
        if s.1 = key then s.2.filter (fun v => decide (v ∉ delset)) else []))

/-- get_value(key) restricted to one leaf chain, starting from the empty
DelSet and an empty result vector. -/
def get_value (key : Nat) (c : LeafChain) : Option (List Nat) :=
  get_value_go key [] c

/-! Specification-side reading of the leaf chain for claim C1, stated the
way the spec words it: the record deltas of the chain listed from head to
base, an index-dependent tombstone set (the values of DELETE deltas for
the key occurring strictly earlier, i.e. nearer the head), visible INSERT
contributions, and base contributions filtered by the full tombstone set. -/

/-- Record deltas of a chain, head first, as (isInsert, key, value). -/
def recDeltas : LeafChain → List (Bool × Nat × Nat)
  | .base _ => []
  | .ins k v _ r => (true, k, v) :: recDeltas r
  | .del k v _ r => (false, k, v) :: recDeltas r
  | .splitD _ _ _ r => recDeltas r

/-- Slots of the base node at the tail of a chain. -/
def baseSlots : LeafChain → List (Nat × List Nat)
  | .base s => s
  | .ins _ _ _ r => baseSlots r
  | .del _ _ _ r => baseSlots r
  | .splitD _ _ _ r => baseSlots r

/-- Values deleted for the probe key by the DELETE deltas of a delta list. -/
def tombsIn (key : Nat) (ds : List (Bool × Nat × Nat)) : List Nat :=
  ds.filterMap (fun d => if d.1 = false ∧ d.2.1 = key then some d.2.2 else none)

/-- Visibility test for one delta: an INSERT for the key contributes its
value when the value is neither in the ambient tombstones ts nor in the
tombstones tomb accumulated before it. -/
def insVisAtD (key : Nat) (ts tomb : List Nat) : Option (Bool × Nat × Nat) → Option Nat
  | some (true, k, v) => if k = key ∧ v ∉ ts ++ tomb then some v else none
  | _ => none

/-- Visible INSERT contributions: the i-th delta contributes its value when
it is an INSERT for the key and the value is not in the ambient tombstones
ts nor among the values deleted for the key by the deltas before index i. -/
def insVisible (key : Nat) (ts : List Nat) (ds : List (Bool × Nat × Nat)) : List Nat :=
  (List.range ds.length).filterMap
    (fun i => insVisAtD key ts (tombsIn key (ds.take i)) ds[i]?)

/-- Base contributions: values stored for the key in the base, filtered by
a tombstone set. -/
def baseVis (key : Nat) (tomb : List Nat) (slots : List (Nat × List Nat)) : List Nat :=
  (slots.filter (fun s => decide (s.1 = key))).flatMap
    (fun s => s.2.filter (fun v => decide (v ∉ tomb)))

/-- The values visible for a key in a leaf chain as the spec describes
them, with ambient tombstones ts (ts = [] at the top level). -/
def specVis (key : Nat) (ts : List Nat) (c : LeafChain) : List Nat :=
  insVisible key ts (recDeltas c) ++
    baseVis key (ts ++ tombsIn key (recDeltas c)) (baseSlots c)

/-! Consolidation: leaf_fake_consolidate folds the chain base-first into a
working projection (the stack in the source reverses the chain, so the
delta nearest the base is applied first and the head last). -/

/-- target_pos scan of the INSERT fold step: walking x from the back of the
working keys, the first x with key >= tmpkeys[x] yields position x+1; if
none, position 0. -/
def targetPos (k : Nat) (keys : List Nat) : Nat :=
  match keys.reverse.findIdx? (fun x => decide (x ≤ k)) with
  | some r => keys.length - r
  | none => 0

/-- Helper for the INSERT fold step: append the value to the first slot
whose key matches; none when no slot matches. -/
def pushExisting (k v : Nat) : List (Nat × List Nat) → Option (List (Nat × List Nat))
  | [] => none
  | s :: rest =>
      if s.1 = k then some ((s.1, s.2 ++ [v]) :: rest)
      else (pushExisting k v rest).map (fun r => s :: r)

/-- RECORD_DELTA INSERT fold step of leaf_fake_consolidate.  If the key
already exists the value is appended to its bucket.  Otherwise the pair is
inserted: at the end when the delta's slotuse is 0, else at target_pos;
afterwards the source asserts tmpvals.size() == recordDelta->slotuse
(modelled as none on failure). -/
def consolidateInsert (k v su : Nat) (slots : List (Nat × List Nat)) :
    Option (List (Nat × List Nat)) :=
  match pushExisting k v slots with
  | some slots' => some slots'
  | none =>
      let slots' :=
        if su = 0 then slots ++ [(k, [v])]
        else slots.insertIdx (targetPos k (slots.map Prod.fst)) (k, [v])
      if slots'.length = su then some slots' else none

/-- First slot with a matching key: remove every stored value equal to the
deleted value; drop the slot if its bucket becomes empty; later slots are
untouched (the loop breaks). -/
def delStep (k v : Nat) : List (Nat × List Nat) → List (Nat × List Nat)
  | [] => []
  | s :: rest =>
      if s.1 = k then
        let nv := s.2.filter (fun x => decide (x ≠ v))
        if nv = [] then rest else (s.1, nv) :: rest
      else s :: delStep k v rest

/-- RECORD_DELTA DELETE fold step of leaf_fake_consolidate, with the
trailing slotuse assertion. -/
def consolidateDelete (k v su : Nat) (slots : List (Nat × List Nat)) :
    Option (List (Nat × List Nat)) :=
  let slots' := delStep k v slots
  if slots'.length = su then some slots' else none

/-- SPLIT_DELTA fold step: truncate the working set at the first key >= Kp
(the source resizes at that index and breaks). -/
def truncateSplit (kp : Nat) (slots : List (Nat × List Nat)) : List (Nat × List Nat) :=
  slots.takeWhile (fun s => decide (s.1 < kp))

/-- leaf_fake_consolidate: fold the whole chain, base first, into the
logical (keys, value-buckets) projection.  none models a fired assertion. -/
def leaf_fake_consolidate : LeafChain → Option (List (Nat × List Nat))
  | .base slots => some slots
  | .ins k v su r => (leaf_fake_consolidate r).bind (consolidateInsert k v su)
  | .del k v su r => (leaf_fake_consolidate r).bind (consolidateDelete k v su)
  | .splitD kp _ _ r => (leaf_fake_consolidate r).map (truncateSplit kp)

/-- A leaf page: the bounds and sibling pointer carried by the chain's head
node, plus the chain itself.  In all chains installed by the operations the
deltas replicate the bounds of the node they are prepended to (the
RecordDelta construction sites copy low_key/high_key/next_leafnode from the
basic node), so a single copy per page is faithful. -/
structure LeafPage where
  lowKey : Nat
  infLow : Bool
  highKey : Nat
  infHigh : Bool
  nextLeaf : Int
  chain : LeafChain
deriving DecidableEq

/-! Inner pages. -/

/--
An inner-page delta chain.  The base is an InnerNode with separator keys
slotkey[0..slotuse) and children childid[0..slotuse]; `idxD` is an
IndexEntryDelta advertising child pQ for [Kp, Kq) and `splitD` a
SplitDelta; su is the stored slotuse field of the delta.
-/
inductive InnerChain where
  | base (keys : List Nat) (childs : List Int)
  | idxD (kp kq : Nat) (infKq : Bool) (pq : Int) (su : Nat) (rest : InnerChain)
  | splitD (kp : Nat) (pq : Int) (su : Nat) (rest : InnerChain)
deriving DecidableEq

/-- slotuse of the head node of an inner chain. -/
def innerHeadSlotuse : InnerChain → Nat
  | .base keys _ => keys.length
  | .idxD _ _ _ _ su _ => su
  | .splitD _ _ su _ => su

/-- Structural delta-chain length of an inner chain. -/
def innerChainLen : InnerChain → Nat
  | .base _ _ => 0
  | .idxD _ _ _ _ _ r => innerChainLen r + 1
  | .splitD _ _ _ r => innerChainLen r + 1

/-- INDEX_ENTRY_DELTA fold step of inner_fake_consolidate: pos is the first
position whose key is strictly greater than Kp (slotuse if none); Kp is
inserted at pos in the keys and pQ at pos+1 in the children. -/
def innerConsInsert (kp : Nat) (pq : Int) (ks : List Nat) (cs : List Int) :
    List Nat × List Int :=
  let pos := ks.findIdx (fun x => decide (kp < x))
  (ks.insertIdx pos kp, cs.insertIdx (pos + 1) pq)

/-- SPLIT_DELTA fold step on an inner projection: truncate keys at the
first key >= Kp and children one position later. -/
def innerTruncate (kp : Nat) (ks : List Nat) (cs : List Int) : List Nat × List Int :=
  match ks.findIdx? (fun x => decide (kp ≤ x)) with
  | none => (ks, cs)
  | some i => (ks.take i, cs.take (i + 1))

/-- inner_fake_consolidate: fold an inner chain, base first, into the
(separator keys, child PIDs) projection. -/
def inner_fake_consolidate : InnerChain → List Nat × List Int
  | .base ks cs => (ks, cs)
  | .idxD kp _ _ pq _ r =>
      let p := inner_fake_consolidate r
      innerConsInsert kp pq p.1 p.2
  | .splitD kp _ _ r =>
      let p := inner_fake_consolidate r
      innerTruncate kp p.1 p.2

/-- An inner page: head-node bounds plus the chain. -/
structure InnerPage where
  lowKey : Nat
  infLow : Bool
  highKey : Nat
  infHigh : Bool
  chain : InnerChain
deriving DecidableEq

/-- A logical page, leaf or inner (the is_leaf flag of the source). -/
inductive Page where
  | leaf (p : LeafPage)
  | inner (p : InnerPage)
deriving DecidableEq

/-- need_split() of the chain's head node: slotuse >= leafslotmax for a
leaf, slotuse >= innerslotmax for an inner node. -/
def need_split_page : Page → Bool
  | .leaf p => decide (leafslotmax ≤ headSlotuse p.chain)
  | .inner p => decide (innerslotmax ≤ innerHeadSlotuse p.chain)

/-- delta_list_len of a page's head node (structural, see DNode below). -/
def pageChainLen : Page → Nat
  | .leaf p => chainLen p.chain
  | .inner p => innerChainLen p.chain

/-- Logical projection of a page: its leaf or inner fake consolidation. -/
def pageProj : Page → Option (List (Nat × List Nat) ⊕ List Nat × List Int)
  | .leaf p => (leaf_fake_consolidate p.chain).map Sum.inl
  | .inner p => some (Sum.inr (inner_fake_consolidate p.chain))

/--
consolidate(pid) in the quiescent single-writer reading: the entry
assertion fires when the head needs a split (none); a chain no longer than
MAX_DELTA_CHAIN_LEN is returned unchanged; otherwise the chain is folded
into a fresh base node carrying the head's bounds and sibling pointer
(none when the fold asserts or the folded size exceeds the slot maximum),
and the CAS installing it succeeds.
-/
def consolidatePage : Page → Option Page
  | .leaf p =>
      if leafslotmax ≤ headSlotuse p.chain then none
      else if MAX_DELTA_CHAIN_LEN < chainLen p.chain then
        match leaf_fake_consolidate p.chain with
        | none => none
        | some slots =>
            if slots.length ≤ leafslotmax then
              some (.leaf { p with chain := .base slots })
            else none
      else some (.leaf p)
  | .inner p =>
      if innerslotmax ≤ innerHeadSlotuse p.chain then none
      else if MAX_DELTA_CHAIN_LEN < innerChainLen p.chain then
        (if (inner_fake_consolidate p.chain).1.length + 1 =
              (inner_fake_consolidate p.chain).2.length ∧
            (inner_fake_consolidate p.chain).1.length ≤ innerslotmax then
          some (.inner { p with
            chain := .base (inner_fake_consolidate p.chain).1
                           (inner_fake_consolidate p.chain).2 })
        else none)
      else some (.inner p)

/-- The slot-use invariant of the spec at a page's head: the stored
slotuse equals the number of logical keys after applying all deltas, i.e.
the key count of the chain's fold.  Every chain the operations install
maintains it: insert_entry bumps slotuse exactly when key_is_in is false
(the key is new to the fold), append_delete decrements it exactly when the
key loses its last visible value (the fold drops the key), and a split
delta stores slotuse/2 while its pivot, chosen by create_leaf /
create_inner as the projection's key at index slotuse/2, truncates the
fold to slotuse/2 keys. -/
def slotuseInvB : Page → Bool
  | .leaf p =>
      match leaf_fake_consolidate p.chain with
      | some slots => decide (headSlotuse p.chain = slots.length)
      | none => true
  | .inner p =>
      decide (innerHeadSlotuse p.chain = (inner_fake_consolidate p.chain).1.length)

/-! Split helpers create_leaf / create_inner. -/

/-- Copy len consecutive entries of a list starting at index start (the
copying for-loops of create_leaf / create_inner); none models the
out-of-bounds read the source would commit. -/
def copySlice {α : Type} (l : List α) (start len : Nat) : Option (List α) :=
  match len with
  | 0 => some []
  | n + 1 =>
      match l[start]? with
      | none => none
      | some a => (copySlice l (start + 1) n).map (fun r => a :: r)

/--
create_leaf(check_split_node, pivotal): consolidate the node logically,
copy the entries at indices [orisize/2, orisize) (orisize being the head's
slotuse) into a fresh LeafNode that inherits high_key / inf_highkey and
next_leafnode from the old node, set its low_key and the pivot to its
first key, and give it slotuse (orisize+1)/2.  Returns the new sibling and
the pivot.
-/
def create_leaf (m : LeafPage) : Option (LeafPage × Nat) :=
  match leaf_fake_consolidate m.chain with
  | none => none
  | some slots =>
      let orisize := headSlotuse m.chain
      match copySlice slots (orisize / 2) (orisize - orisize / 2) with
      | none => none
      | some upper =>
          match upper[0]? with
          | none => none
          | some s0 =>
              some ({ lowKey := s0.1, infLow := false, highKey := m.highKey,
                      infHigh := m.infHigh, nextLeaf := m.nextLeaf,
                      chain := .base upper }, s0.1)

/--
create_inner(check_split_node, pivotal): consolidate logically, set the
fresh InnerNode's childid[0] to NULL_PID, copy keys at [orisize/2, orisize)
and children at [orisize/2 + 1, orisize + 1) shifted one slot right, set
low_key and the pivot to the first copied key.
-/
def create_inner (m : InnerPage) : Option (InnerPage × Nat) :=
  let kc := inner_fake_consolidate m.chain
  let orisize := innerHeadSlotuse m.chain
  match copySlice kc.1 (orisize / 2) (orisize - orisize / 2) with
  | none => none
  | some upk =>
      match copySlice kc.2 (orisize / 2 + 1) (orisize - orisize / 2) with
      | none => none
      | some upc =>
          match upk[0]? with
          | none => none
          | some k0 =>
              some ({ lowKey := k0, infLow := false, highKey := m.highKey,
                      infHigh := m.infHigh,
                      chain := .base upk (NULL_PID :: upc) }, k0)

/-! Mutators.  insert_entry / delete_entry are retry loops around a CAS on
the leaf's mapping slot.  In the quiescent reading the target chain is
fixed; the CAS outcomes are an oracle schedule (a list of Booleans, one per
iteration).  none models a schedule that never succeeds (the loop keeps
running) or a fired assertion; the preflight split and consolidation are
no-ops on a chain that is short and within bounds, and the key_in_node
re-check holds by assumption, as in the quiescent state. -/

/--
insert_entry(key, value) loop body on a fixed leaf chain head: compute
key_dup = key_is_in(key, head); if unique keys are required and key_dup,
return false; otherwise build the record-insert delta (slotuse is the
head's slotuse, incremented when the key is new) and CAS it in, retrying
per the schedule.
-/
def insert_entry (unique : Bool) (key v : Nat) (head : LeafChain) :
    List Bool → Option (Bool × LeafChain)
  | [] => none
  | cas :: rest =>
      match key_is_in key head with
      | none => none
      | some dup =>
          if unique ∧ dup then some (false, head)
          else
            let newChain :=
              LeafChain.ins key v (if dup then headSlotuse head else headSlotuse head + 1) head
            if cas then some (true, newChain)
            else insert_entry unique key v head rest

/--
delete_entry(key, value) loop body on a fixed leaf chain head: compute
(total, matching) = count_pair; if matching = 0, return false; the source
then asserts matching <= total; deletekey = (matching == total), and the
record-delete delta (slotuse decremented when the key disappears) is
CAS-installed per the schedule.
-/
def delete_entry (key v : Nat) (head : LeafChain) :
    List Bool → Option (Bool × LeafChain)
  | [] => none
  | cas :: rest =>
      match count_pair key v head with
      | none => none
      | some tp =>
          if tp.2 = 0 then some (false, head)
          else if tp.1 < tp.2 then none
          else
            let newChain :=
              LeafChain.del key v (headSlotuse head - (if tp.2 = tp.1 then 1 else 0)) head
            if cas then some (true, newChain)
            else delete_entry key v head rest

/-! Scan.  scan / scan_all walk the leaf sibling chain from headleaf via
next_leafnode through the mapping table, logically consolidating each leaf.
The mapping table restricted to leaves is a partial map from PIDs to leaf
pages; fuel bounds the walk (the C++ loop would not terminate on a cyclic
sibling chain). -/

/-- The sequence of leaf pages visited by the sibling-chain walk. -/
def leafWalk (t : Int → Option LeafPage) : Nat → Int → Option (List LeafPage)
  | 0, _ => none
  | fuel + 1, pid =>
      match t pid with
      | none => some []
      | some p => (leafWalk t fuel p.nextLeaf).map (fun ps => p :: ps)

/-- scan(keys_result, values_result): per visited leaf, append the
projection's keys to keys_result and its value buckets to values_result. -/
def scan (t : Int → Option LeafPage) : Nat → Int → Option (List Nat × List (List Nat))
  | 0, _ => none
  | fuel + 1, pid =>
      match t pid with
      | none => some ([], [])
      | some p =>
          match leaf_fake_consolidate p.chain with
          | none => none
          | some slots =>
              match scan t fuel p.nextLeaf with
              | none => none
              | some kv => some (slots.map Prod.fst ++ kv.1, slots.map Prod.snd ++ kv.2)

/-- scan_all(v): per visited leaf, append the contents of every value
bucket of the projection. -/
def scan_all (t : Int → Option LeafPage) : Nat → Int → Option (List Nat)
  | 0, _ => none
  | fuel + 1, pid =>
      match t pid with
      | none => some []
      | some p =>
          match leaf_fake_consolidate p.chain with
          | none => none
          | some slots =>
              match scan_all t fuel p.nextLeaf with
              | none => none
              | some vs => some ((slots.map Prod.snd).flatten ++ vs)

/-- Quiescent well-formedness of one leaf page, as maintained by the
structural invariants of the spec: the projection exists, its keys are
sorted, every key lies in [low_key, high_key) (each bound waived by its
infinity flag), and the bounds themselves are ordered when both are
finite. -/
def pageWf (p : LeafPage) : Prop :=
  ∃ slots, leaf_fake_consolidate p.chain = some slots ∧
    (slots.map Prod.fst).Sorted (· ≤ ·) ∧
    (∀ k ∈ slots.map Prod.fst,
      (p.infLow = true ∨ p.lowKey ≤ k) ∧ (p.infHigh = true ∨ k < p.highKey)) ∧
    (p.infLow = false → p.infHigh = false → p.lowKey ≤ p.highKey)

/-- Adjacency of consecutive leaves on the sibling chain: the left high key
and the right low key are finite and ordered. -/
def pageLink (p q : LeafPage) : Prop :=
  p.infHigh = false ∧ q.infLow = false ∧ p.highKey ≤ q.lowKey

/-! Traversal (search).  For claim C8 the whole node zoo reachable by
search is embedded; the mapping table is a partial map PID → node. -/

/-- Nodes as interpreted by search: only the fields the traversal reads. -/
inductive SNode where
  | leafN (pid : Int)
  | recordD (pid : Int) (next : SNode)
  | innerN (pid : Int) (keys : List Nat) (childs : List Int)
  | indexD (pid : Int) (kp kq : Nat) (infKq : Bool) (pq : Int) (next : SNode)
  | splitDN (pid : Int) (kp : Nat) (pq : Int) (next : SNode)
  | removeD (pid : Int) (next : SNode)
  | mergeD (pid : Int) (kp : Nat) (orig : SNode) (next : SNode)

/--
The recursive helper search(node, key, path).  Returns the updated path on
success and none when the source would return -1 (a PID dereferencing to
null, an empty path after popping on a REMOVE_NODE_DELTA, a NULL_PID
leftmost child, or an out-of-range child index).  The path is a stack with
its top at the list head.  fuel bounds the recursion.
-/
def search_help (t : Int → Option SNode) :
    Nat → SNode → Nat → List Int → Option (List Int)
  | 0, _, _, _ => none
  | _ + 1, .leafN _, _, path => some path
  | _ + 1, .recordD _ _, _, path => some path
  | fuel + 1, .indexD _ kp kq infKq pq next, key, path =>
      if key_greaterequalB key kp false && key_lessB key kq infKq then
        match t pq with
        | none => none
        | some n2 => search_help t fuel n2 key (pq :: path)
      else search_help t fuel next key path
  | fuel + 1, .removeD _ _, key, path =>
      match path with
      | [] => none
      | _ :: rest =>
          match rest with
          | [] => none
          | p :: _ =>
              match t p with
              | none => none
              | some n2 => search_help t fuel n2 key rest
  | fuel + 1, .mergeD _ kp orig next, key, path =>
      if key_greaterequalB key kp false then search_help t fuel orig key path
      else search_help t fuel next key path
  | fuel + 1, .splitDN _ kp pq next, key, path =>
      if key_greaterequalB key kp false then
        match t pq with
        | none => none
        | some n2 => search_help t fuel n2 key (pq :: path.tail)
      else search_help t fuel next key path
  | fuel + 1, .innerN _ keys childs, key, path =>
      if keys.length = 0 then
        match childs[0]? with
        | none => none
        | some c0 =>
            if c0 = NULL_PID then none
            else
              match t c0 with
              | none => none
              | some n2 => search_help t fuel n2 key (c0 :: path)
      else
        let i := keys.findIdx (fun x => key_lessB key x false)
        match childs[i]? with
        | none => none
        | some ci =>
            match t ci with
            | none => none
            | some n2 => search_help t fuel n2 key (ci :: path)

/-- search(pid, key): null root gives the empty path; otherwise the helper
runs from the root frame, and a -1 result yields the empty path. -/
def search (t : Int → Option SNode) (fuel : Nat) (pid : Int) (key : Nat) : List Int :=
  match t pid with
  | none => []
  | some node =>
      match search_help t fuel node key [pid] with
      | none => []
      | some path => path

/-- The prelude of get_value(key, result): it calls search and immediately
reads path.top().  On an empty path std::stack::top() is undefined
behaviour, modelled as none; a non-empty path yields the target PID the
function proceeds with. -/
def get_value_target (t : Int → Option SNode) (fuel : Nat) (root : Int) (key : Nat) :
    Option Int :=
  match search t fuel root key with
  | [] => none
  | p :: _ => some p

/-! Delta-chain length bookkeeping (claim C6).  Every node stores a
delta_list_len field; prepend(delta, orig) sets it to orig's plus one, and
the Node constructor used by the base nodes sets it to zero.  BuiltChain
captures exactly the chains the operations install: base nodes are freshly
constructed, and every delta variant that is ever installed (record delta,
split delta, index-entry delta) goes through prepend. -/

/-- A chain with the stored delta_list_len field of every node made
explicit. -/
inductive DNode where
  | leafBase (dll : Nat)
  | innerBase (dll : Nat)
  | recD (dll : Nat) (next : DNode)
  | splitDN (dll : Nat) (next : DNode)
  | idxDN (dll : Nat) (next : DNode)
deriving DecidableEq

/-- The stored delta_list_len field of the head node. -/
def dllOf : DNode → Nat
  | .leafBase d => d
  | .innerBase d => d
  | .recD d _ => d
  | .splitDN d _ => d
  | .idxDN d _ => d

/-- Structural number of deltas in front of the base. -/
def structLen : DNode → Nat
  | .leafBase _ => 0
  | .innerBase _ => 0
  | .recD _ n => structLen n + 1
  | .splitDN _ n => structLen n + 1
  | .idxDN _ n => structLen n + 1

/-- LeafNode constructor: Node(..., delta_l = 0, ...). -/
def mkLeafNode : DNode := .leafBase 0

/-- InnerNode constructor: Node(..., delta_l = 0, ...). -/
def mkInnerNode : DNode := .innerBase 0

/-- RecordDelta constructor: calls prepend(this, next), which stores
next->delta_list_len + 1. -/
def mkRecordDelta (next : DNode) : DNode := .recD (dllOf next + 1) next

/-- SplitDelta constructor: calls prepend(this, next). -/
def mkSplitDelta (next : DNode) : DNode := .splitDN (dllOf next + 1) next

/-- IndexEntryDelta constructor: calls prepend(this, next). -/
def mkIndexEntryDelta (next : DNode) : DNode := .idxDN (dllOf next + 1) next

/-- Chains reachable by the install operations: a fresh base node, or any
installed delta variant prepended to a reachable chain. -/
inductive BuiltChain : DNode → Prop where
  | leafB : BuiltChain mkLeafNode
  | innerB : BuiltChain mkInnerNode
  | recB (n : DNode) : BuiltChain n → BuiltChain (mkRecordDelta n)
  | splitB (n : DNode) : BuiltChain n → BuiltChain (mkSplitDelta n)
  | idxB (n : DNode) : BuiltChain n → BuiltChain (mkIndexEntryDelta n)

/-- The stored-length invariant along a whole chain: every delta stores its
successor's length plus one, and the base stores zero. -/
def dllInv : DNode → Prop
  | .leafBase d => d = 0
  | .innerBase d => d = 0
  | .recD d n => d = dllOf n + 1 ∧ dllInv n
  | .splitDN d n => d = dllOf n + 1 ∧ dllInv n
  | .idxDN d n => d = dllOf n + 1 ∧ dllInv n

/-! Concrete states used by witnesses and counterexamples. -/

/-- A small leaf chain: an insert of (1,10) over a delete of (1,20) over a
base holding key 1 with values [20, 30]. -/
def chainW1 : LeafChain :=
  .ins 1 10 1 (.del 1 20 1 (.base [(1, [20, 30])]))

/-- A one-slot base chain. -/
def chainW2 : LeafChain := .base [(1, [5])]

/-- A leaf page over a two-key base, used for the create_leaf witness. -/
def pageW4 : LeafPage :=
  { lowKey := 0, infLow := true, highKey := 0, infHigh := true,
    nextLeaf := NULL_PID, chain := .base [(1, [10]), (2, [20])] }

/-- Stack of j record-insert deltas for key 0 (duplicate-key inserts, so
each keeps slotuse su) on top of a chain. -/
def dupIns (su : Nat) : Nat → LeafChain → LeafChain
  | 0, c => c
  | j + 1, c => .ins 0 (100 + j) su (dupIns su j c)

/-- A consolidatable page far from the slot maximum: one base slot under
nine duplicate-key inserts. -/
def pageW5 : Page :=
  .leaf { lowKey := 0, infLow := true, highKey := 0, infHigh := true,
          nextLeaf := NULL_PID, chain := dupIns 1 9 (.base [(0, [0])]) }

/-- The base node pageW5 consolidates to. -/
def pageW5Out : Page :=
  .leaf { lowKey := 0, infLow := true, highKey := 0, infHigh := true,
          nextLeaf := NULL_PID,
          chain := .base [(0, [0, 100, 101, 102, 103, 104, 105, 106, 107, 108])] }

/-- An inner page over a two-separator base, for the create_inner witness. -/
def pageW9 : InnerPage :=
  { lowKey := 0, infLow := true, highKey := 0, infHigh := true,
    chain := .base [1, 2] [10, 20, 30] }

/-- The single leaf page of the scan witness. -/
def pageW7 : LeafPage :=
  { lowKey := 0, infLow := true, highKey := 9, infHigh := false,
    nextLeaf := NULL_PID, chain := .base [(1, [10]), (2, [20, 21])] }

/-- A one-leaf sibling table for the scan witness. -/
def tableW7 : Int → Option LeafPage :=
  fun pid => if pid = 0 then some pageW7 else none

/-- The everywhere-null mapping table: every PID dereferences to null. -/
def tableNull : Int → Option SNode := fun _ => none

/-! Theorems. -/

/-- C6: for every delta node D installed at the head of a reachable chain
with successor N, D.delta_list_len equals N.delta_list_len + 1, and every
base node has delta_list_len zero (hence the stored field equals the
structural chain length); this covers every delta variant the operations
install: record deltas, split deltas and index-entry deltas. -/
theorem delta_list_len_invariant (c : DNode) (h : BuiltChain c) :
    dllInv c ∧ dllOf c = structLen c := by
  induction h with
  | leafB => exact ⟨rfl, rfl⟩
  | innerB => exact ⟨rfl, rfl⟩
  | recB n hn ih =>
      refine ⟨⟨rfl, ih.1⟩, ?_⟩
      show dllOf n + 1 = structLen n + 1
      rw [ih.2]
  | splitB n hn ih =>
      refine ⟨⟨rfl, ih.1⟩, ?_⟩
      show dllOf n + 1 = structLen n + 1
      rw [ih.2]
  | idxB n hn ih =>
      refine ⟨⟨rfl, ih.1⟩, ?_⟩
      show dllOf n + 1 = structLen n + 1
      rw [ih.2]

/-- Witness for C6 on a concrete three-node chain. -/
theorem delta_list_len_invariant_witness :
    dllInv (mkRecordDelta (mkSplitDelta mkLeafNode)) ∧
      dllOf (mkRecordDelta (mkSplitDelta mkLeafNode)) =
        structLen (mkRecordDelta (mkSplitDelta mkLeafNode)) :=
  delta_list_len_invariant _ (BuiltChain.recB _ (BuiltChain.splitB _ BuiltChain.leafB))

/-- Accumulator invariant of count_pair: the pair count never overtakes the
total count. -/
theorem count_pair_go_le (key value : Nat) :
    ∀ (c : LeafChain) (deleted : List Nat) (tc pc tc' pc' : Nat),
      pc ≤ tc → count_pair_go key value deleted tc pc c = some (tc', pc') →
      pc' ≤ tc' := by
  intro c
  induction c with
  | base slots =>
      intro deleted tc pc tc' pc' hle h
      simp only [count_pair_go] at h
      cases hf : slots.find? (fun s => decide (s.1 = key)) with
      | none =>
          rw [hf] at h
          simp only [Option.some.injEq, Prod.mk.injEq] at h
          omega
      | some s =>
          rw [hf] at h
          simp only [Option.some.injEq, Prod.mk.injEq] at h
          have hfl := List.length_filter_le (fun v => decide (v = value))
            (s.2.filter (fun v => decide (v ∉ deleted)))
          omega
  | ins k v su r ih =>
      intro deleted tc pc tc' pc' hle h
      simp only [count_pair_go] at h
      by_cases hc : k = key ∧ v ∉ deleted
      · rw [if_pos hc] at h
        by_cases hv : v = value
        · rw [if_pos hv] at h
          exact ih deleted (tc + 1) (pc + 1) tc' pc' (by omega) h
        · rw [if_neg hv] at h
          exact ih deleted (tc + 1) pc tc' pc' (by omega) h
      · rw [if_neg hc] at h
        exact ih deleted tc pc tc' pc' hle h
  | del k v su r ih =>
      intro deleted tc pc tc' pc' hle h
      simp only [count_pair_go] at h
      exact ih _ tc pc tc' pc' hle h
  | splitD kp pq su r ih =>
      intro deleted tc pc tc' pc' hle h
      simp only [count_pair_go] at h
      by_cases hg : key_greaterequalB key kp false
      · rw [if_pos hg] at h
        cases h
      · rw [if_neg hg] at h
        exact ih deleted tc pc tc' pc' hle h

/-- C10: for every leaf delta chain and every (key, value), a returned
count_pair (total_count, pair_count) satisfies pair_count <= total_count
(and both are naturals, so nonnegative); in particular the fatal assertion
in delete_entry comparing the two can never fire. -/
theorem count_pair_le_total (key value : Nat) (c : LeafChain) (tc pc : Nat)
    (h : count_pair key value c = some (tc, pc)) : pc ≤ tc :=
  count_pair_go_le key value c [] 0 0 tc pc (Nat.le_refl 0) h

/-- Witness for C10 on a concrete chain. -/
theorem count_pair_le_total_witness :
    count_pair 1 20 chainW1 = some (2, 0) ∧ (0 : Nat) ≤ 2 :=
  ⟨by decide, count_pair_le_total 1 20 chainW1 2 0 (by decide)⟩

/-- C2: insert_entry(key, value) returns false exactly when the unique-keys
policy bit is set and key_is_in reports the key visibly present in the
target chain; in every other case the loop runs until some CAS in the
schedule succeeds and returns true with the record-insert delta (slotuse
bumped exactly when the key was new) installed in front of the old head. -/
theorem insert_entry_spec (unique : Bool) (key v : Nat) (head : LeafChain)
    (sched : List Bool) (dup : Bool)
    (hk : key_is_in key head = some dup) (hs : true ∈ sched) :
    (insert_entry unique key v head sched = some (false, head) ↔
      (unique = true ∧ dup = true)) ∧
    (¬(unique = true ∧ dup = true) →
      insert_entry unique key v head sched =
        some (true, .ins key v
          (if dup then headSlotuse head else headSlotuse head + 1) head)) := by
  induction sched with
  | nil => cases hs
  | cons cas rest ih =>
      cases cas with
      | true =>
          by_cases hud : unique = true ∧ dup = true
          · refine ⟨?_, fun hc => absurd hud hc⟩
            simp only [insert_entry, hk, if_pos hud]
            exact ⟨fun _ => hud, fun _ => trivial⟩
          · have hres : insert_entry unique key v head (true :: rest) =
                some (true, .ins key v
                  (if dup then headSlotuse head else headSlotuse head + 1) head) := by
              simp only [insert_entry, hk]
              rw [if_neg hud]
              simp
            refine ⟨⟨fun hcon => ?_, fun hc => absurd hc hud⟩, fun _ => hres⟩
            rw [hres] at hcon
            simp at hcon
      | false =>
          have hs' : true ∈ rest := by
            cases hs with
            | tail _ hmem => exact hmem
          have hstep : insert_entry unique key v head (false :: rest) =
              if unique = true ∧ dup = true then some (false, head)
              else insert_entry unique key v head rest := by
            by_cases hud : unique = true ∧ dup = true
            · simp only [insert_entry, hk]
              rw [if_pos hud, if_pos hud]
            · simp only [insert_entry, hk]
              rw [if_neg hud, if_neg hud]
              simp
          by_cases hud : unique = true ∧ dup = true
          · rw [hstep, if_pos hud]
            exact ⟨⟨fun _ => hud, fun _ => rfl⟩, fun hc => absurd hud hc⟩
          · rw [hstep, if_neg hud]
            exact ih hs'

/-- Witness for C2: inserting a fresh key under the unique-keys policy. -/
theorem insert_entry_spec_witness :
    key_is_in 2 chainW2 = some false ∧ true ∈ [true] ∧
      insert_entry true 2 7 chainW2 [true] = some (true, .ins 2 7 2 chainW2) := by
  refine ⟨by decide, by decide, ?_⟩
  have h := (insert_entry_spec true 2 7 chainW2 [true] false (by decide)
    (by decide)).2 (by simp)
  simpa using h

/-- C3: delete_entry(key, value) returns false exactly when the matching
component of count_pair is zero; otherwise the loop runs until some CAS in
the schedule succeeds and returns true with the record-delete delta
(slotuse decremented exactly when the key loses its last value) installed
in front of the old head. -/
theorem delete_entry_spec (key v : Nat) (head : LeafChain) (sched : List Bool)
    (tc pc : Nat) (hc : count_pair key v head = some (tc, pc)) (hs : true ∈ sched) :
    (delete_entry key v head sched = some (false, head) ↔ pc = 0) ∧
    (pc ≠ 0 →
      delete_entry key v head sched =
        some (true, .del key v
          (headSlotuse head - (if pc = tc then 1 else 0)) head)) := by
  have hle : pc ≤ tc := count_pair_go_le key v head [] 0 0 tc pc (Nat.le_refl 0) hc
  have hnl : ¬(tc < pc) := by omega
  induction sched with
  | nil => cases hs
  | cons cas rest ih =>
      cases cas with
      | true =>
          by_cases hz : pc = 0
          · refine ⟨?_, fun hne => absurd hz hne⟩
            simp only [delete_entry, hc, if_pos hz]
            exact ⟨fun _ => hz, fun _ => trivial⟩
          · have hres : delete_entry key v head (true :: rest) =
                some (true, .del key v
                  (headSlotuse head - (if pc = tc then 1 else 0)) head) := by
              simp only [delete_entry, hc]
              rw [if_neg hz, if_neg hnl]
              simp
            refine ⟨⟨fun hcon => ?_, fun hzz => absurd hzz hz⟩, fun _ => hres⟩
            rw [hres] at hcon
            simp at hcon
      | false =>
          have hs' : true ∈ rest := by
            cases hs with
            | tail _ hmem => exact hmem
          have hstep : delete_entry key v head (false :: rest) =
              if pc = 0 then some (false, head)
              else delete_entry key v head rest := by
            by_cases hz : pc = 0
            · simp only [delete_entry, hc]
              rw [if_pos hz, if_pos hz]
            · simp only [delete_entry, hc]
              rw [if_neg hz, if_neg hnl, if_neg hz]
              simp
          by_cases hz : pc = 0
          · rw [hstep, if_pos hz]
            exact ⟨⟨fun _ => hz, fun _ => rfl⟩, fun hne => absurd hz hne⟩
          · rw [hstep, if_neg hz]
            exact ih hs'

/-- Witness for C3: deleting the only value of the only key. -/
theorem delete_entry_spec_witness :
    count_pair 1 5 chainW2 = some (1, 1) ∧ true ∈ [true] ∧
      delete_entry 1 5 chainW2 [true] = some (true, .del 1 5 0 chainW2) := by
  refine ⟨by decide, by decide, ?_⟩
  have h := (delete_entry_spec 1 5 chainW2 [true] 1 1 (by decide)
    (by decide)).2 (by simp)
  simpa using h

/-- Pointwise congruence for filterMap. -/
theorem filterMap_ext {α β : Type} (l : List α) (f g : α → Option β)
    (h : ∀ a ∈ l, f a = g a) : l.filterMap f = l.filterMap g := by
  induction l with
  | nil => rfl
  | cons a t ih =>
      rw [List.filterMap_cons, List.filterMap_cons,
        h a (List.mem_cons_self a t), ih (fun x hx => h x (List.mem_cons_of_mem a hx))]

/-- An INSERT delta at the head leaves the tombstone extraction unchanged. -/
theorem tombsIn_cons_ins (key k v : Nat) (ds : List (Bool × Nat × Nat)) :
    tombsIn key ((true, k, v) :: ds) = tombsIn key ds := by
  simp [tombsIn]

/-- A DELETE delta at the head contributes its value when its key matches. -/
theorem tombsIn_cons_del (key k v : Nat) (ds : List (Bool × Nat × Nat)) :
    tombsIn key ((false, k, v) :: ds) =
      if k = key then v :: tombsIn key ds else tombsIn key ds := by
  by_cases hk : k = key
  · simp [tombsIn, hk]
  · simp [tombsIn, hk]

/-- insVisAtD only depends on the membership of the two tombstone lists. -/
theorem insVisAtD_congr (key : Nat) (ts1 tomb1 ts2 tomb2 : List Nat)
    (h : ∀ x, (x ∈ ts1 ++ tomb1) ↔ (x ∈ ts2 ++ tomb2)) :
    ∀ o, insVisAtD key ts1 tomb1 o = insVisAtD key ts2 tomb2 o := by
  intro o
  match o with
  | none => rfl
  | some (false, k, v) => rfl
  | some (true, k, v) =>
      show (if k = key ∧ v ∉ ts1 ++ tomb1 then some v else none) =
        (if k = key ∧ v ∉ ts2 ++ tomb2 then some v else none)
      exact if_congr (and_congr Iff.rfl (not_congr (h v))) rfl rfl

/-- insVisible on the empty delta list. -/
theorem insVisible_nil (key : Nat) (ts : List Nat) : insVisible key ts [] = [] := by
  simp [insVisible]

/-- Unfolding insVisible across a head INSERT delta. -/
theorem insVisible_cons_ins (key : Nat) (ts : List Nat) (k v : Nat)
    (ds : List (Bool × Nat × Nat)) :
    insVisible key ts ((true, k, v) :: ds) =
      (if k = key ∧ v ∉ ts then [v] else []) ++ insVisible key ts ds := by
  unfold insVisible
  rw [List.length_cons, List.range_succ_eq_map, List.filterMap_cons, List.filterMap_map]
  have htail :
      List.filterMap
        ((fun i => insVisAtD key ts (tombsIn key (((true, k, v) :: ds).take i))
          ((true, k, v) :: ds)[i]?) ∘ Nat.succ) (List.range ds.length) =
      List.filterMap
        (fun i => insVisAtD key ts (tombsIn key (ds.take i)) ds[i]?)
        (List.range ds.length) := by
    apply filterMap_ext
    intro i _
    simp only [Function.comp_apply, List.getElem?_cons_succ, List.take_succ_cons,
      tombsIn_cons_ins]
  rw [htail]
  have hhead : insVisAtD key ts (tombsIn key (((true, k, v) :: ds).take 0))
      (((true, k, v) :: ds)[0]?) = if k = key ∧ v ∉ ts then some v else none := by
    rw [List.take_zero, List.getElem?_cons_zero]
    show (if k = key ∧ v ∉ ts ++ tombsIn key [] then some v else none) = _
    have ht : tombsIn key [] = [] := rfl
    rw [ht, List.append_nil]
  rw [hhead]
  by_cases hc : k = key ∧ v ∉ ts
  · rw [if_pos hc, if_pos hc]
    rfl
  · rw [if_neg hc, if_neg hc]
    rfl

/-- Unfolding insVisible across a head DELETE delta: the delta emits
nothing and its value joins the ambient tombstones for later deltas. -/
theorem insVisible_cons_del (key : Nat) (ts : List Nat) (k v : Nat)
    (ds : List (Bool × Nat × Nat)) :
    insVisible key ts ((false, k, v) :: ds) =
      insVisible key (if k = key then v :: ts else ts) ds := by
  unfold insVisible
  rw [List.length_cons, List.range_succ_eq_map, List.filterMap_cons, List.filterMap_map]
  have hhead : insVisAtD key ts (tombsIn key (((false, k, v) :: ds).take 0))
      (((false, k, v) :: ds)[0]?) = none := by
    rw [List.take_zero, List.getElem?_cons_zero]
    rfl
  rw [hhead]
  apply filterMap_ext
  intro i _
  simp only [Function.comp_apply, List.getElem?_cons_succ, List.take_succ_cons,
    tombsIn_cons_del]
  apply insVisAtD_congr
  intro x
  by_cases hk : k = key
  · simp only [if_pos hk, List.mem_append, List.mem_cons]
    tauto
  · simp only [if_neg hk]

/-- baseVis only depends on the membership of the tombstone list. -/
theorem baseVis_congr (key : Nat) (t1 t2 : List Nat)
    (h : ∀ x, x ∈ t1 ↔ x ∈ t2) (slots : List (Nat × List Nat)) :
    baseVis key t1 slots = baseVis key t2 slots := by
  have hf : (fun v => decide (v ∉ t1)) = (fun v => decide (v ∉ t2)) := by
    funext v
    exact decide_eq_decide.mpr (not_congr (h v))
  unfold baseVis
  rw [hf]

/-- specVis across a head INSERT delta. -/
theorem specVis_ins (key : Nat) (ts : List Nat) (k v su : Nat) (r : LeafChain) :
    specVis key ts (.ins k v su r) =
      (if k = key ∧ v ∉ ts then [v] else []) ++ specVis key ts r := by
  unfold specVis
  simp only [recDeltas, baseSlots, insVisible_cons_ins, tombsIn_cons_ins]
  rw [List.append_assoc]

/-- specVis across a head DELETE delta: the deleted value joins the
ambient tombstones. -/
theorem specVis_del (key : Nat) (ts : List Nat) (k v su : Nat) (r : LeafChain) :
    specVis key ts (.del k v su r) =
      specVis key (if k = key then v :: ts else ts) r := by
  unfold specVis
  simp only [recDeltas, baseSlots, insVisible_cons_del, tombsIn_cons_del]
  congr 1
  apply baseVis_congr
  intro x
  by_cases hk : k = key
  · simp only [if_pos hk, List.mem_append, List.mem_cons]
    tauto
  · simp only [if_neg hk]

/-- specVis ignores split deltas. -/
theorem specVis_splitD (key : Nat) (ts : List Nat) (kp : Nat) (pq : Int) (su : Nat)
    (r : LeafChain) : specVis key ts (.splitD kp pq su r) = specVis key ts r := by
  unfold specVis
  simp only [recDeltas, baseSlots]

/-- specVis on a bare base node. -/
theorem specVis_base (key : Nat) (ts : List Nat) (slots : List (Nat × List Nat)) :
    specVis key ts (.base slots) = baseVis key ts slots := by
  unfold specVis
  simp only [recDeltas, baseSlots, insVisible_nil, tombsIn, List.filterMap_nil,
    List.append_nil, List.nil_append]

/-- The LEAF loop of get_value equals baseVis. -/
theorem flatMap_ite_eq_baseVis (key : Nat) (ts : List Nat)
    (slots : List (Nat × List Nat)) :
    (slots.flatMap (fun s =>
      if s.1 = key then s.2.filter (fun v => decide (v ∉ ts)) else [])) =
      baseVis key ts slots := by
  induction slots with
  | nil => rfl
  | cons s rest ih =>
      unfold baseVis at ih ⊢
      rw [List.flatMap_cons, List.filter_cons, ih]
      by_cases hk : s.1 = key
      · rw [if_pos hk, if_pos (decide_eq_true hk), List.flatMap_cons]
      · rw [if_neg hk, if_neg (by simpa using hk), List.nil_append]

/-- Main refinement of claim C1: on a chain whose split deltas all lie
above the probe key, get_value's loop returns exactly the spec-side
visible values, for any pair of membership-equivalent tombstone lists. -/
theorem get_value_go_eq_specVis (key : Nat) :
    ∀ (c : LeafChain) (ts ts' : List Nat), (∀ x, x ∈ ts ↔ x ∈ ts') →
      splitOKb key c = true → get_value_go key ts c = some (specVis key ts' c) := by
  intro c
  induction c with
  | base slots =>
      intro ts ts' h _
      simp only [get_value_go, specVis_base, Option.some.injEq]
      rw [flatMap_ite_eq_baseVis]
      exact baseVis_congr key ts ts' h slots
  | ins k v su r ih =>
      intro ts ts' h hok
      have hok' : splitOKb key r = true := hok
      rw [specVis_ins]
      by_cases hk : k = key
      · by_cases hv : v ∈ ts
        · have hv' : v ∈ ts' := (h v).1 hv
          have hcond : ¬(k = key ∧ v ∉ ts') := fun hc => hc.2 hv'
          simp only [get_value_go, if_pos hk, if_pos hv, if_neg hcond,
            List.nil_append]
          exact ih ts ts' h hok'
        · have hv' : v ∉ ts' := fun hc => hv ((h v).2 hc)
          have hcond : k = key ∧ v ∉ ts' := ⟨hk, hv'⟩
          simp only [get_value_go, if_pos hk, if_neg hv, if_pos hcond]
          rw [ih ts ts' h hok']
          rfl
      · have hcond : ¬(k = key ∧ v ∉ ts') := fun hc => hk hc.1
        simp only [get_value_go, if_neg hk, if_neg hcond, List.nil_append]
        exact ih ts ts' h hok'
  | del k v su r ih =>
      intro ts ts' h hok
      have hok' : splitOKb key r = true := hok
      rw [specVis_del]
      by_cases hk : k = key
      · simp only [get_value_go, if_pos hk]
        apply ih
        · intro x
          simp only [List.mem_cons]
          exact or_congr Iff.rfl (h x)
        · exact hok'
      · simp only [get_value_go, if_neg hk]
        exact ih ts ts' h hok'
  | splitD kp pq su r ih =>
      intro ts ts' h hok
      simp only [splitOKb, Bool.and_eq_true, decide_eq_true_eq] at hok
      have hge : key_greaterequalB key kp false = false := by
        simp [key_greaterequalB]
        omega
      rw [specVis_splitD]
      simp only [get_value_go, hge, Bool.false_eq_true, if_false]
      exact ih ts ts' h hok.2

/-- C1: get_value(k, result) appends exactly the values visible for k in
the leaf chain read from head to base: an INSERT record delta for k
contributes its value iff the value is not among the values DELETE deltas
for k recorded strictly earlier (nearer the head), a DELETE record delta
for k extends that tombstone set, and each base value for k is contributed
iff it escapes the full tombstone set. -/
theorem get_value_tombstone_spec (key : Nat) (c : LeafChain)
    (h : splitOKb key c = true) : get_value key c = some (specVis key [] c) :=
  get_value_go_eq_specVis key c [] [] (fun _ => Iff.rfl) h

/-- Witness for C1 on the concrete chain chainW1: the head insert emits 10,
the delete of 20 tombstones the base's 20, and the base contributes 30. -/
theorem get_value_tombstone_spec_witness :
    splitOKb 1 chainW1 = true ∧ get_value 1 chainW1 = some (specVis 1 [] chainW1) ∧
      get_value 1 chainW1 = some [10, 30] :=
  ⟨by decide, get_value_tombstone_spec 1 chainW1 (by decide), by decide⟩

/-- copySlice returns the in-bounds slice drop-take of the list. -/
theorem copySlice_eq {α : Type} (l : List α) :
    ∀ (len start : Nat), start + len ≤ l.length →
      copySlice l start len = some ((l.drop start).take len) := by
  intro len
  induction len with
  | zero =>
      intro start _
      simp [copySlice]
  | succ n ih =>
      intro start h
      have hlt : start < l.length := by omega
      rw [copySlice, List.getElem?_eq_getElem hlt, ih (start + 1) (by omega)]
      show some (l[start] :: (l.drop (start + 1)).take n) = _
      rw [List.drop_eq_getElem_cons hlt, List.take_succ_cons]

/-- C4: splitting a leaf whose consolidated projection has n keys (the
head's slotuse agreeing with n, per the slot-use invariant) produces a
sibling holding exactly the entries at indices n/2 .. n-1, that is
ceil(n/2) many; the sibling's low key and the split pivot both equal the
first (hence, the projection being sorted, smallest) key of that upper
half; its high key, infinity flag and next-leaf pointer are inherited from
the old node. -/
theorem create_leaf_split_spec (m : LeafPage) (slots : List (Nat × List Nat)) (n : Nat)
    (hc : leaf_fake_consolidate m.chain = some slots)
    (hsu : headSlotuse m.chain = n)
    (hlen : slots.length = n)
    (hn : 0 < n)
    (hsort : (slots.map Prod.fst).Sorted (· ≤ ·)) :
    ∃ S piv, create_leaf m = some (S, piv) ∧
      S.chain = LeafChain.base (slots.drop (n / 2)) ∧
      (slots.drop (n / 2)).length = (n + 1) / 2 ∧
      (∃ s0, slots[n / 2]? = some s0 ∧ piv = s0.1 ∧ S.lowKey = piv) ∧
      (∀ k ∈ (slots.drop (n / 2)).map Prod.fst, piv ≤ k) ∧
      S.highKey = m.highKey ∧ S.infHigh = m.infHigh ∧ S.nextLeaf = m.nextLeaf := by
  have hhalf : n / 2 < n := Nat.div_lt_self hn (by norm_num)
  have hup : copySlice slots (n / 2) (n - n / 2) = some (slots.drop (n / 2)) := by
    rw [copySlice_eq slots (n - n / 2) (n / 2) (by omega)]
    rw [List.take_of_length_le (by rw [List.length_drop]; omega)]
  have hmemlt : n / 2 < slots.length := by omega
  have hget0 : (slots.drop (n / 2))[0]? = some slots[n / 2] := by
    rw [List.getElem?_drop]
    exact List.getElem?_eq_getElem (by omega)
  refine ⟨{ lowKey := slots[n / 2].1, infLow := false, highKey := m.highKey,
            infHigh := m.infHigh, nextLeaf := m.nextLeaf,
            chain := .base (slots.drop (n / 2)) }, slots[n / 2].1, ?_, rfl, ?_, ?_, ?_,
          rfl, rfl, rfl⟩
  · unfold create_leaf
    rw [hc, hsu]
    simp only [hup, hget0]
  · rw [List.length_drop]
    omega
  · exact ⟨slots[n / 2], List.getElem?_eq_getElem hmemlt, rfl, rfl⟩
  · intro k hk
    have hks : ((slots.map Prod.fst).drop (n / 2)).Sorted (· ≤ ·) :=
      List.Pairwise.drop hsort
    have hd : (slots.map Prod.fst).drop (n / 2) =
        slots[n / 2].1 :: (slots.map Prod.fst).drop (n / 2 + 1) := by
      rw [List.drop_eq_getElem_cons (by rw [List.length_map]; omega)]
      rw [List.getElem_map]
    rw [List.map_drop] at hk
    rw [hd] at hks hk
    rcases List.mem_cons.mp hk with h1 | h2
    · omega
    · exact (List.sorted_cons.mp hks).1 k h2

/-- Witness for C4: splitting a two-key leaf page. -/
theorem create_leaf_split_spec_witness :
    ∃ S piv, create_leaf pageW4 = some (S, piv) ∧
      S.chain = LeafChain.base ([(1, [10]), (2, [20])].drop (2 / 2)) ∧
      ([(1, [10]), (2, [20])].drop (2 / 2)).length = (2 + 1) / 2 ∧
      (∃ s0, [(1, [10]), (2, [20])][2 / 2]? = some s0 ∧ piv = s0.1 ∧ S.lowKey = piv) ∧
      (∀ k ∈ (([(1, [10]), (2, [20])].drop (2 / 2)).map Prod.fst), piv ≤ k) ∧
      S.highKey = pageW4.highKey ∧ S.infHigh = pageW4.infHigh ∧
      S.nextLeaf = pageW4.nextLeaf :=
  create_leaf_split_spec pageW4 [(1, [10]), (2, [20])] 2 (by decide) (by decide)
    (by decide) (by decide) (by decide)

/-- C9: create_inner gives the new sibling NULL_PID as its first child
pointer, while the remaining child slots hold the upper-half children
(indices n/2+1 .. n of the consolidated projection) and the key slots the
upper-half separators. -/
theorem create_inner_nullpid_spec (m : InnerPage) (ks : List Nat) (cs : List Int)
    (n : Nat)
    (hc : inner_fake_consolidate m.chain = (ks, cs))
    (hsu : innerHeadSlotuse m.chain = n)
    (hk : ks.length = n)
    (hcs : cs.length = n + 1)
    (hn : 0 < n) :
    ∃ S piv, create_inner m = some (S, piv) ∧
      S.chain = InnerChain.base (ks.drop (n / 2)) (NULL_PID :: cs.drop (n / 2 + 1)) := by
  have hhalf : n / 2 < n := Nat.div_lt_self hn (by norm_num)
  have hupk : copySlice ks (n / 2) (n - n / 2) = some (ks.drop (n / 2)) := by
    rw [copySlice_eq ks (n - n / 2) (n / 2) (by omega)]
    rw [List.take_of_length_le (by rw [List.length_drop]; omega)]
  have hupc : copySlice cs (n / 2 + 1) (n - n / 2) = some (cs.drop (n / 2 + 1)) := by
    rw [copySlice_eq cs (n - n / 2) (n / 2 + 1) (by omega)]
    rw [List.take_of_length_le (by rw [List.length_drop]; omega)]
  have hget0 : (ks.drop (n / 2))[0]? = some ks[n / 2] := by
    rw [List.getElem?_drop]
    exact List.getElem?_eq_getElem (by omega)
  refine ⟨{ lowKey := ks[n / 2], infLow := false, highKey := m.highKey,
            infHigh := m.infHigh,
            chain := .base (ks.drop (n / 2)) (NULL_PID :: cs.drop (n / 2 + 1)) },
          ks[n / 2], ?_, rfl⟩
  unfold create_inner
  rw [hc, hsu]
  simp only [hupk, hupc, hget0]

/-- Witness for C9: splitting a two-separator inner page; the sibling's
child array starts with NULL_PID. -/
theorem create_inner_nullpid_spec_witness :
    ∃ S piv, create_inner pageW9 = some (S, piv) ∧
      S.chain = InnerChain.base ([1, 2].drop (2 / 2))
        (NULL_PID :: [(10 : Int), 20, 30].drop (2 / 2 + 1)) :=
  create_inner_nullpid_spec pageW9 [1, 2] [10, 20, 30] 2 (by decide) (by decide)
    (by decide) (by decide) (by decide)

/-- C5: a successful consolidation of a page whose chain exceeds
MAX_DELTA_CHAIN_LEN replaces the chain by a fresh base node whose
projection (keys with value multisets for a leaf, separators with child
PIDs for an inner node) equals the fold of the entire old chain, with
delta_list_len zero; consequently consolidating the same page twice in
succession preserves the projection and yields chain length zero both
times.  The slot-use invariant hypothesis (head slotuse = fold key count,
maintained by every installable chain) together with consolidate's
need-split entry gate keeps the folded projection strictly below the slot
maximum, so the second call's entry check passes and it returns the page
unchanged. -/
theorem consolidate_spec (pg pg' : Page)
    (hsu : slotuseInvB pg = true)
    (hlen : MAX_DELTA_CHAIN_LEN < pageChainLen pg)
    (h : consolidatePage pg = some pg') :
    pageChainLen pg' = 0 ∧ pageProj pg' = pageProj pg ∧
      consolidatePage pg' = some pg' := by
  cases pg with
  | leaf p =>
      rw [consolidatePage] at h
      by_cases hns : leafslotmax ≤ headSlotuse p.chain
      · rw [if_pos hns] at h
        cases h
      · have hlen2 : MAX_DELTA_CHAIN_LEN < chainLen p.chain := hlen
        rw [if_neg hns, if_pos hlen2] at h
        split at h
        · cases h
        · rename_i slots hc
          split at h
          · cases h
            have hsu' : headSlotuse p.chain = slots.length := by
              have hsu2 : slotuseInvB (Page.leaf p) = true := hsu
              rw [slotuseInvB, hc] at hsu2
              exact of_decide_eq_true hsu2
            have hlt : slots.length < leafslotmax := by omega
            refine ⟨rfl, ?_, ?_⟩
            · show (leaf_fake_consolidate (.base slots)).map Sum.inl =
                (leaf_fake_consolidate p.chain).map Sum.inl
              rw [hc]
              rfl
            · rw [consolidatePage]
              have h1 : ¬(leafslotmax ≤ headSlotuse (LeafChain.base slots)) := by
                show ¬(leafslotmax ≤ slots.length)
                omega
              rw [if_neg h1]
              have h2 : ¬(MAX_DELTA_CHAIN_LEN <
                  chainLen (LeafChain.base slots)) := by
                simp [chainLen]
              rw [if_neg h2]
          · cases h
  | inner p =>
      rw [consolidatePage] at h
      by_cases hns : innerslotmax ≤ innerHeadSlotuse p.chain
      · rw [if_pos hns] at h
        cases h
      · have hlen2 : MAX_DELTA_CHAIN_LEN < innerChainLen p.chain := hlen
        rw [if_neg hns, if_pos hlen2] at h
        by_cases hok : (inner_fake_consolidate p.chain).1.length + 1 =
            (inner_fake_consolidate p.chain).2.length ∧
            (inner_fake_consolidate p.chain).1.length ≤ innerslotmax
        · rw [if_pos hok] at h
          cases h
          have hsu' : innerHeadSlotuse p.chain =
              (inner_fake_consolidate p.chain).1.length := by
            have hsu2 : slotuseInvB (Page.inner p) = true := hsu
            rw [slotuseInvB] at hsu2
            exact of_decide_eq_true hsu2
          have hlt : (inner_fake_consolidate p.chain).1.length < innerslotmax := by
            omega
          refine ⟨rfl, rfl, ?_⟩
          rw [consolidatePage]
          have h1 : ¬(innerslotmax ≤ innerHeadSlotuse
              (InnerChain.base (inner_fake_consolidate p.chain).1
                (inner_fake_consolidate p.chain).2)) := by
            show ¬(innerslotmax ≤ (inner_fake_consolidate p.chain).1.length)
            omega
          rw [if_neg h1]
          have h2 : ¬(MAX_DELTA_CHAIN_LEN <
              innerChainLen (InnerChain.base (inner_fake_consolidate p.chain).1
                (inner_fake_consolidate p.chain).2)) := by
            simp [innerChainLen]
          rw [if_neg h2]
        · rw [if_neg hok] at h
          cases h

/-- Witness for C5: a page with a nine-delta chain whose projection has
one key consolidates to a zero-length chain with the same projection, and
a second consolidation returns it unchanged. -/
theorem consolidate_spec_witness :
    slotuseInvB pageW5 = true ∧
      MAX_DELTA_CHAIN_LEN < pageChainLen pageW5 ∧
      consolidatePage pageW5 = some pageW5Out ∧
      pageChainLen pageW5Out = 0 ∧
      pageProj pageW5Out = pageProj pageW5 ∧
      consolidatePage pageW5Out = some pageW5Out := by
  have h0 : slotuseInvB pageW5 = true := by decide
  have h1 : MAX_DELTA_CHAIN_LEN < pageChainLen pageW5 := by decide
  have h2 : consolidatePage pageW5 = some pageW5Out := by decide
  have h3 := consolidate_spec pageW5 pageW5Out h0 h1 h2
  exact ⟨h0, h1, h2, h3.1, h3.2.1, h3.2.2⟩

/-- The empty-path behaviour of search at a null root mapping. -/
theorem search_null_root (t : Int → Option SNode) (fuel : Nat) (pid : Int) (key : Nat)
    (h : t pid = none) : search t fuel pid key = [] := by
  rw [search, h]

/-- C8, evaluated at the failing input: with the root PID dereferencing to
null, search returns the empty path, and get_value does not retry: it
immediately reads path.top() of the empty stack, which is undefined
behaviour (modelled as none). -/
theorem get_value_empty_path_cex :
    search tableNull 5 0 7 = [] ∧ get_value_target tableNull 5 0 7 = none :=
  ⟨rfl, rfl⟩

/-- Step equation of leafWalk at a live PID. -/
theorem leafWalk_succ_some {t : Int → Option LeafPage} {f : Nat} {pid : Int}
    {p : LeafPage} (h : t pid = some p) :
    leafWalk t (f + 1) pid = (leafWalk t f p.nextLeaf).map (fun ps => p :: ps) := by
  rw [leafWalk, h]

/-- Step equation of scan at a null PID. -/
theorem scan_succ_none {t : Int → Option LeafPage} {f : Nat} {pid : Int}
    (h : t pid = none) : scan t (f + 1) pid = some ([], []) := by
  rw [scan, h]

/-- Step equation of scan at a live PID with known consolidation and tail. -/
theorem scan_succ_eq {t : Int → Option LeafPage} {f : Nat} {pid : Int}
    {p : LeafPage} {slots : List (Nat × List Nat)} {kv : List Nat × List (List Nat)}
    (h : t pid = some p) (hc : leaf_fake_consolidate p.chain = some slots)
    (hs : scan t f p.nextLeaf = some kv) :
    scan t (f + 1) pid =
      some (slots.map Prod.fst ++ kv.1, slots.map Prod.snd ++ kv.2) := by
  rw [scan, h]
  show (match leaf_fake_consolidate p.chain with
    | none => none
    | some slots =>
        match scan t f p.nextLeaf with
        | none => none
        | some kv =>
            some (slots.map Prod.fst ++ kv.1, slots.map Prod.snd ++ kv.2)) = _
  rw [hc]
  show (match scan t f p.nextLeaf with
    | none => none
    | some kv =>
        some (slots.map Prod.fst ++ kv.1, slots.map Prod.snd ++ kv.2)) = _
  rw [hs]

/-- Step equation of scan_all at a null PID. -/
theorem scan_all_succ_none {t : Int → Option LeafPage} {f : Nat} {pid : Int}
    (h : t pid = none) : scan_all t (f + 1) pid = some [] := by
  rw [scan_all, h]

/-- Step equation of scan_all at a live PID with known consolidation and
tail. -/
theorem scan_all_succ_eq {t : Int → Option LeafPage} {f : Nat} {pid : Int}
    {p : LeafPage} {slots : List (Nat × List Nat)} {vsr : List Nat}
    (h : t pid = some p) (hc : leaf_fake_consolidate p.chain = some slots)
    (hs : scan_all t f p.nextLeaf = some vsr) :
    scan_all t (f + 1) pid = some ((slots.map Prod.snd).flatten ++ vsr) := by
  rw [scan_all, h]
  show (match leaf_fake_consolidate p.chain with
    | none => none
    | some slots =>
        match scan_all t f p.nextLeaf with
        | none => none
        | some vs => some ((slots.map Prod.snd).flatten ++ vs)) = _
  rw [hc]
  show (match scan_all t f p.nextLeaf with
    | none => none
    | some vs => some ((slots.map Prod.snd).flatten ++ vs)) = _
  rw [hs]

/-- An empty walk means the first PID dereferences to null, so scan and
scan_all both return empty results. -/
theorem leafWalk_nil_scan (t : Int → Option LeafPage) (fuel : Nat) (pid : Int)
    (h : leafWalk t fuel pid = some []) :
    scan t fuel pid = some ([], []) ∧ scan_all t fuel pid = some [] := by
  cases fuel with
  | zero => cases h
  | succ f =>
      cases ht : t pid with
      | none => exact ⟨scan_succ_none ht, scan_all_succ_none ht⟩
      | some q =>
          rw [leafWalk_succ_some ht] at h
          cases hwr : leafWalk t f q.nextLeaf with
          | none =>
              rw [hwr] at h
              cases h
          | some l =>
              rw [hwr] at h
              simp at h

/-- Inductive core for C7: along a successful sibling walk over wf pages
with ordered links, scan succeeds, its key output is sorted and bounded
below by the head page's finite low key, and scan_all flattens scan's
value buckets. -/
theorem scan_walk_sorted (t : Int → Option LeafPage) :
    ∀ (fuel : Nat) (pid : Int) (ps : List LeafPage),
      leafWalk t fuel pid = some ps →
      (∀ p ∈ ps, pageWf p) → List.Chain' pageLink ps →
      ∃ ks vs, scan t fuel pid = some (ks, vs) ∧
        ks.Sorted (· ≤ ·) ∧
        (∀ p0 ps0, ps = p0 :: ps0 → p0.infLow = false → ∀ k ∈ ks, p0.lowKey ≤ k) ∧
        scan_all t fuel pid = some vs.flatten := by
  intro fuel
  induction fuel with
  | zero =>
      intro pid ps hw
      cases hw
  | succ fuel ih =>
      intro pid ps hw hwf hch
      cases ht : t pid with
      | none =>
          rw [leafWalk, ht] at hw
          cases hw
          refine ⟨[], [], scan_succ_none ht, List.sorted_nil, ?_, ?_⟩
          · intro p0 ps0 hps
            cases hps
          · rw [scan_all_succ_none ht]
            rfl
      | some p =>
          rw [leafWalk_succ_some ht] at hw
          cases hwr : leafWalk t fuel p.nextLeaf with
          | none =>
              rw [hwr] at hw
              cases hw
          | some ps' =>
              rw [hwr] at hw
              simp at hw
              subst hw
              obtain ⟨slots, hcons, hsort, hbounds, hlh⟩ :=
                hwf p (List.mem_cons_self p ps')
              have hch' : List.Chain' pageLink ps' := hch.tail
              have hwf' : ∀ q ∈ ps', pageWf q :=
                fun q hq => hwf q (List.mem_cons_of_mem p hq)
              obtain ⟨ks', vs', hscan', hsort', hbound', hall'⟩ :=
                ih p.nextLeaf ps' hwr hwf' hch'
              refine ⟨slots.map Prod.fst ++ ks', slots.map Prod.snd ++ vs', ?_, ?_, ?_, ?_⟩
              · exact scan_succ_eq ht hcons hscan'
              · rw [List.Sorted, List.pairwise_append]
                refine ⟨hsort, hsort', ?_⟩
                intro a ha b hb
                cases hps' : ps' with
                | nil =>
                    subst hps'
                    have hkn := (leafWalk_nil_scan t fuel p.nextLeaf hwr).1
                    rw [hscan'] at hkn
                    simp only [Option.some.injEq, Prod.mk.injEq] at hkn
                    rw [hkn.1] at hb
                    cases hb
                | cons q rest =>
                    subst hps'
                    have hpq : pageLink p q := (List.chain'_cons.mp hch).1
                    have hhia : a < p.highKey := by
                      rcases (hbounds a ha).2 with h1 | h2
                      · rw [hpq.1] at h1
                        cases h1
                      · exact h2
                    have hqb : q.lowKey ≤ b := hbound' q rest rfl hpq.2.1 b hb
                    have := hpq.2.2
                    omega
              · intro p0 ps0 hps hinf k hk
                cases hps
                rcases List.mem_append.mp hk with hk1 | hk2
                · rcases (hbounds k hk1).1 with h1 | h2
                  · rw [hinf] at h1
                    cases h1
                  · exact h2
                · cases hps' : ps' with
                  | nil =>
                      subst hps'
                      have hkn := (leafWalk_nil_scan t fuel p.nextLeaf hwr).1
                      rw [hscan'] at hkn
                      simp only [Option.some.injEq, Prod.mk.injEq] at hkn
                      rw [hkn.1] at hk2
                      cases hk2
                  | cons q rest =>
                      subst hps'
                      have hpq : pageLink p q := (List.chain'_cons.mp hch).1
                      have hqk : q.lowKey ≤ k := hbound' q rest rfl hpq.2.1 k hk2
                      have hlow : p.lowKey ≤ p.highKey := hlh hinf hpq.1
                      have := hpq.2.2
                      omega
              · rw [scan_all_succ_eq ht hcons hall', List.flatten_append]

/-- C7: scan and scan_all, walking the leaf sibling chain from the head
leaf and emitting each leaf's logically consolidated projection, yield the
tree's keys in ascending (non-decreasing) order on any quiescent state:
whenever the walked pages are well formed and their ranges are linked in
order, scan's key output is sorted, and scan_all emits exactly the
concatenation of scan's value buckets, i.e. the values grouped in the same
ascending key order. -/
theorem scan_sorted_spec (t : Int → Option LeafPage) (fuel : Nat) (headleaf : Int)
    (ps : List LeafPage) (ks : List Nat) (vs : List (List Nat))
    (hw : leafWalk t fuel headleaf = some ps)
    (hwf : ∀ p ∈ ps, pageWf p)
    (hch : List.Chain' pageLink ps)
    (hs : scan t fuel headleaf = some (ks, vs)) :
    ks.Sorted (· ≤ ·) ∧ scan_all t fuel headleaf = some vs.flatten := by
  obtain ⟨ks', vs', hscan', hsort', _, hall'⟩ :=
    scan_walk_sorted t fuel headleaf ps hw hwf hch
  rw [hs] at hscan'
  simp only [Option.some.injEq, Prod.mk.injEq] at hscan'
  rw [← hscan'.1] at hsort'
  rw [← hscan'.2] at hall'
  exact ⟨hsort', hall'⟩

/-- Witness for C7 on a one-leaf table. -/
theorem scan_sorted_spec_witness :
    leafWalk tableW7 2 0 = some [pageW7] ∧
      scan tableW7 2 0 = some ([1, 2], [[10], [20, 21]]) ∧
      List.Sorted (· ≤ ·) [1, 2] ∧
      scan_all tableW7 2 0 = some [[10], [20, 21]].flatten := by
  have hw : leafWalk tableW7 2 0 = some [pageW7] := by decide
  have hs : scan tableW7 2 0 = some ([1, 2], [[10], [20, 21]]) := by decide
  have hwf : ∀ p ∈ [pageW7], pageWf p := by
    intro p hp
    have hp' : p = pageW7 := by
      cases hp with
      | head => rfl
      | tail _ hmem => cases hmem
    subst hp'
    exact ⟨[(1, [10]), (2, [20, 21])], rfl, by decide, by decide, by decide⟩
  have hch : List.Chain' pageLink [pageW7] := List.chain'_singleton pageW7
  have h := scan_sorted_spec tableW7 2 0 [pageW7] [1, 2] [[10], [20, 21]] hw hwf hch hs
  exact ⟨hw, hs, h.1, h.2⟩

end BwTree
